import Mathlib

/-!
Shallow embedding of `pmp_check.py`, a simulator of a RISC-V Physical
Memory Protection (PMP) unit with 64 entries.  The embedding follows the
source line by line: `count_trailing_ones`, the `PMPRegion` class
(`__init__`, `region_bounds`, `matches`, `permits`) and the evaluation
core of `main` (building the 64 regions, the first-match scan, and the
no-match defaults).  Python's unbounded non-negative integers (hex-parsed
register values and addresses) are modelled as `Nat`; the pair
`(None, None)` returned for OFF/reserved entries is modelled as `none`.
-/

set_option maxHeartbeats 1000000

/-- Embeds `count_trailing_ones` (lines 4-13): counts the consecutive 1 bits
of `x` starting from the least significant bit, by repeatedly testing
`x & 1` and shifting right, exactly as the Python `while` loop does on a
non-negative input. -/
def count_trailing_ones (x : Nat) : Nat :=
  if h : x &&& 1 = 1 then count_trailing_ones (x >>> 1) + 1 else 0
decreasing_by
  have hm : x % 2 = 1 := by rw [← Nat.and_one_is_mod]; exact h
  have hp : 0 < x := by omega
  calc x >>> 1 = x / 2 := Nat.shiftRight_one x
    _ < x := Nat.div_lt_self hp (by omega)

/-- The privilege mode of a request: the `'M'`/`'S'`/`'U'` command-line token. -/
inductive Mode
  | M
  | S
  | U
deriving DecidableEq

/-- The requested operation: the `'R'`/`'W'`/`'X'` command-line token. -/
inductive Op
  | R
  | W
  | X
deriving DecidableEq

/-- The outcome printed by `main`: "Access allowed" or "Access fault". -/
inductive Decision
  | allowed
  | fault
deriving DecidableEq

/-- One PMP entry, with the attributes stored by `PMPRegion.__init__`
(lines 16-45): the raw inputs `index`, `cfg`, `addr`, `all_pmpaddr` and the
decoded fields `L` (lock, bit 7), `a` (address-matching mode, bits 6-5),
`X` (bit 4), `W` (bit 3), `R` (bit 2). -/
structure PMPRegion where
  index : Nat
  cfg : Nat
  addr : Nat
  all_pmpaddr : List Nat
  L : Nat
  a : Nat
  X : Nat
  W : Nat
  R : Nat
deriving DecidableEq

/-- Embeds `PMPRegion.__init__` (lines 16-45): stores the inputs and decodes the
cfg byte into `L`, `a`, `X`, `W`, `R`. -/
def PMPRegion.init (index cfg addr : Nat) (all_pmpaddr : List Nat) : PMPRegion :=
  ⟨index, cfg, addr, all_pmpaddr,
    (cfg >>> 7) &&& 0x1,
    (cfg >>> 5) &&& 0x3,
    (cfg >>> 4) &&& 0x1,
    (cfg >>> 3) &&& 0x1,
    (cfg >>> 2) &&& 0x1⟩

/-- Python's `x & ~((1 << n) - 1)` (line 70) on a non-negative `x`: the bits
of `x` outside the mask `(1 <<< n) - 1`.  Since `x & m` and `x & ~m`
partition the bits of `x`, this equals `x - (x &&& ((1 <<< n) - 1))`. -/
def clear_low_bits (x n : Nat) : Nat := x - (x &&& ((1 <<< n) - 1))

/-- Embeds `PMPRegion.region_bounds` (lines 47-74): the half-open byte interval of
the entry, or `none` when the entry is OFF (`a = 0`) or the mode value
falls through every branch. -/
def PMPRegion.region_bounds (r : PMPRegion) : Option (Nat × Nat) :=
  if r.a = 0 then none
  else if r.a = 1 then
    some (if r.index = 0 then 0 else (r.all_pmpaddr.getD (r.index - 1) 0) <<< 2,
      r.addr <<< 2)
  else if r.a = 2 then
    some (r.addr <<< 2, (r.addr <<< 2) + 4)
  else if r.a = 3 then
    some (clear_low_bits r.addr (count_trailing_ones r.addr) <<< 2,
      (clear_low_bits r.addr (count_trailing_ones r.addr) <<< 2) +
        (1 <<< (count_trailing_ones r.addr + 3)))
  else none

/-- Embeds `PMPRegion.matches` (lines 76-83): whether `phys_addr` falls inside the
entry's region; `False` when the entry has no region. -/
def PMPRegion.matches (r : PMPRegion) (phys_addr : Nat) : Bool :=
  match r.region_bounds with
  | none => false
  | some (lower, upper) => decide (lower ≤ phys_addr ∧ phys_addr < upper)

/-- Embeds `PMPRegion.permits` (lines 85-99): whether the entry's permission bit
for `op` is set.  `priv_mode` is accepted and ignored, as in the source. -/
def PMPRegion.permits (r : PMPRegion) (op : Op) (priv_mode : Mode) : Bool :=
  if op = Op.R ∧ r.R ≠ 0 then true
  else if op = Op.W ∧ r.W ≠ 0 then true
  else if op = Op.X ∧ r.X ≠ 0 then true
  else false

/-- The body of the matching branch of the scan loop in `main`
(lines 153-161): machine mode with an unlocked entry is allowed outright,
otherwise the permission bit decides. -/
def matchDecision (r : PMPRegion) (mode : Mode) (op : Op) : Decision :=
  if mode = Mode.M ∧ r.L = 0 then Decision.allowed
  else if r.permits op mode then Decision.allowed
  else Decision.fault

/-- The `for region in regions` loop of `main` (lines 151-162): returns the
decision of the first matching entry, or `none` when no entry matches. -/
def scanRegions : List PMPRegion → Nat → Mode → Op → Option Decision
  | [], _, _, _ => none
  | r :: rest, phys_addr, mode, op =>
    if r.matches phys_addr then some (matchDecision r mode op)
    else scanRegions rest phys_addr mode op

/-- The region built for index `i` at line 145:
`PMPRegion(i, pmpcfg[i], pmpaddr[i], pmpaddr)`. -/
def regionAt (pmpcfg pmpaddr : List Nat) (i : Nat) : PMPRegion :=
  PMPRegion.init i (pmpcfg.getD i 0) (pmpaddr.getD i 0) pmpaddr

/-- Line 145: the list of the 64 PMP regions. -/
def mkRegions (pmpcfg pmpaddr : List Nat) : List PMPRegion :=
  (List.range 64).map (regionAt pmpcfg pmpaddr)

/-- Line 148: whether any entry has a non-OFF address-matching mode. -/
def any_pmp (pmpcfg : List Nat) : Bool :=
  pmpcfg.any (fun cfg => ((cfg >>> 5) &&& 0x3) != 0)

/-- The evaluation core of `main` (lines 144-169): scan the 64 regions in
index order; on the first match decide from that entry; with no match,
fault exactly when some entry is implemented and the mode is S or U. -/
def evaluate (pmpcfg pmpaddr : List Nat) (phys_addr : Nat) (mode : Mode)
    (op : Op) : Decision :=
  match scanRegions (mkRegions pmpcfg pmpaddr) phys_addr mode op with
  | some d => d
  | none =>
    if any_pmp pmpcfg = true ∧ (mode = Mode.S ∨ mode = Mode.U) then
      Decision.fault
    else Decision.allowed

/-- The `count_trailing_ones` loop with Python integer semantics on an
arbitrary (possibly negative) `Int`, made total with a fuel parameter:
Python's `x & 1` test is `x % 2 = 1` (Euclidean remainder, as Python's `&`
on a two's-complement integer) and `x >>= 1` is floor division `fdiv x 2`
(Python's sign-extending right shift).  `none` means the fuel ran out. -/
def ctoLoopFuel : Nat → Int → Nat → Option Nat
  | 0, _, _ => none
  | fuel + 1, x, count =>
    if x % 2 = 1 then ctoLoopFuel fuel (x.fdiv 2) (count + 1)
    else some count

/-- The loop of `count_trailing_ones`, restated with `% 2` and `/ 2`. -/
theorem cto_eq (x : Nat) :
    count_trailing_ones x =
      if x % 2 = 1 then count_trailing_ones (x / 2) + 1 else 0 := by
  rw [count_trailing_ones]
  by_cases h : x &&& 1 = 1
  · rw [dif_pos h, Nat.shiftRight_one, if_pos]
    rwa [Nat.and_one_is_mod] at h
  · rw [dif_neg h, if_neg]
    rwa [Nat.and_one_is_mod] at h

/-- Shifting 1 left by n gives `2 ^ n`. -/
theorem one_shiftLeft_eq (n : Nat) : (1 : Nat) <<< n = 2 ^ n := by
  rw [Nat.shiftLeft_eq, Nat.one_mul]

/-- The function `clear_low_bits` really clears the low `n` bits: it equals
`2 ^ n * (x / 2 ^ n)`. -/
theorem clear_low_bits_eq (x n : Nat) :
    clear_low_bits x n = 2 ^ n * (x / 2 ^ n) := by
  unfold clear_low_bits
  rw [one_shiftLeft_eq, Nat.and_pow_two_sub_one_eq_mod]
  have hd := Nat.mod_add_div x (2 ^ n)
  omega

/-- The bit just above the trailing run of ones of `x` is `0`: after
dividing away the `count_trailing_ones x` trailing one bits, the quotient
is even. -/
theorem div_pow_cto_even (x : Nat) :
    x / 2 ^ count_trailing_ones x % 2 = 0 := by
  induction x using Nat.strong_induction_on with
  | _ x ih =>
    rw [cto_eq x]
    by_cases h : x % 2 = 1
    · rw [if_pos h]
      have hx : 0 < x := by omega
      have hlt : x / 2 < x := Nat.div_lt_self hx (by omega)
      have hrec := ih (x / 2) hlt
      have hdd : x / 2 ^ (count_trailing_ones (x / 2) + 1) =
          x / 2 / 2 ^ count_trailing_ones (x / 2) := by
        rw [Nat.div_div_eq_div_mul, pow_succ, Nat.mul_comm (2 ^ _) 2,
          Nat.mul_comm 2 (2 ^ _)]
      rw [hdd]
      exact hrec
    · rw [if_neg h]
      simpa using (by omega : x % 2 = 0)

/-- Or-ing an even and an odd number splits bitwise: `(2 * a) ||| (2 * b + 1) = 2 * (a ||| b) + 1`. -/
theorem two_mul_lor_two_mul_add_one (a b : Nat) :
    (2 * a) ||| (2 * b + 1) = 2 * (a ||| b) + 1 := by
  have h := Nat.lor_bit false a true b
  simpa [Nat.bit_val] using h

/-- A power-of-two multiple or-ed with a mask below it is their sum. -/
theorem lor_two_pow_mul_mask (m q : Nat) :
    (2 ^ (m + 1) * q) ||| (2 ^ m - 1) = 2 ^ (m + 1) * q + (2 ^ m - 1) := by
  induction m generalizing q with
  | zero => simp
  | succ n ih =>
    have h1 : 2 ^ (n + 2) * q = 2 * (2 ^ (n + 1) * q) := by ring
    have hp : (1 : Nat) ≤ 2 ^ n := Nat.one_le_two_pow
    have hpow : (2 : Nat) ^ (n + 1) = 2 * 2 ^ n := by ring
    have h2 : 2 ^ (n + 1) - 1 = 2 * (2 ^ n - 1) + 1 := by omega
    rw [h1, h2, two_mul_lor_two_mul_add_one, ih]
    omega

/-- Trailing-ones count of `2 ^ (m + 1) * q + (2 ^ m - 1)`: exactly `m`,
since the low `m` bits are ones and bit `m` is zero. -/
theorem cto_two_pow_mul_add_mask (m q : Nat) :
    count_trailing_ones (2 ^ (m + 1) * q + (2 ^ m - 1)) = m := by
  induction m generalizing q with
  | zero =>
    rw [cto_eq]
    have : (2 ^ (0 + 1) * q + (2 ^ 0 - 1)) % 2 = 0 := by omega
    rw [this]
    simp
  | succ n ih =>
    have hp : (1 : Nat) ≤ 2 ^ n := Nat.one_le_two_pow
    have hpow1 : (2 : Nat) ^ (n + 1) = 2 * 2 ^ n := by ring
    have hq2 : 2 ^ (n + 2) * q = 2 * (2 ^ (n + 1) * q) := by ring
    have hv : 2 ^ (n + 2) * q + (2 ^ (n + 1) - 1) =
        2 * (2 ^ (n + 1) * q + (2 ^ n - 1)) + 1 := by omega
    rw [hv, cto_eq]
    have hmod : (2 * (2 ^ (n + 1) * q + (2 ^ n - 1)) + 1) % 2 = 1 := by omega
    have hdiv : (2 * (2 ^ (n + 1) * q + (2 ^ n - 1)) + 1) / 2 =
        2 ^ (n + 1) * q + (2 ^ n - 1) := by omega
    rw [hmod, if_pos rfl, hdiv, ih]

/-- Projections of a decoded entry. -/
theorem regionAt_a (pmpcfg pmpaddr : List Nat) (i : Nat) :
    (regionAt pmpcfg pmpaddr i).a = (pmpcfg.getD i 0 >>> 5) &&& 0x3 := rfl

theorem regionAt_L (pmpcfg pmpaddr : List Nat) (i : Nat) :
    (regionAt pmpcfg pmpaddr i).L = (pmpcfg.getD i 0 >>> 7) &&& 0x1 := rfl

/-- The scan loop returns the decision of the first matching entry. -/
theorem scanRegions_first (phys_addr : Nat) (mode : Mode) (op : Op)
    (d : PMPRegion) :
    ∀ (rs : List PMPRegion) (i : Nat), i < rs.length →
      (∀ j, j < i → (rs.getD j d).matches phys_addr = false) →
      (rs.getD i d).matches phys_addr = true →
      scanRegions rs phys_addr mode op =
        some (matchDecision (rs.getD i d) mode op) := by
  intro rs
  induction rs with
  | nil => intro i hi; simp at hi
  | cons r rest ih =>
    intro i hi hbef hm
    cases i with
    | zero =>
      rw [List.getD_cons_zero] at hm ⊢
      simp [scanRegions, hm]
    | succ k =>
      have h0 : r.matches phys_addr = false := by
        have := hbef 0 (Nat.succ_pos k)
        rwa [List.getD_cons_zero] at this
      rw [List.getD_cons_succ] at hm ⊢
      have hstep : scanRegions (r :: rest) phys_addr mode op =
          scanRegions rest phys_addr mode op := by
        simp [scanRegions, h0]
      rw [hstep]
      refine ih k ?_ ?_ hm
      · simpa using hi
      · intro j hj
        have := hbef (j + 1) (by omega)
        rwa [List.getD_cons_succ] at this

/-- The scan loop returns `none` when no entry matches. -/
theorem scanRegions_none (phys_addr : Nat) (mode : Mode) (op : Op)
    (d : PMPRegion) :
    ∀ (rs : List PMPRegion),
      (∀ j, j < rs.length → (rs.getD j d).matches phys_addr = false) →
      scanRegions rs phys_addr mode op = none := by
  intro rs
  induction rs with
  | nil => intro _; rfl
  | cons r rest ih =>
    intro hnm
    have h0 : r.matches phys_addr = false := by
      have := hnm 0 (by simp)
      rwa [List.getD_cons_zero] at this
    have hstep : scanRegions (r :: rest) phys_addr mode op =
        scanRegions rest phys_addr mode op := by
      simp [scanRegions, h0]
    rw [hstep]
    refine ih ?_
    intro j hj
    have := hnm (j + 1) (by simpa using hj)
    rwa [List.getD_cons_succ] at this

theorem mkRegions_length (pmpcfg pmpaddr : List Nat) :
    (mkRegions pmpcfg pmpaddr).length = 64 := by
  simp [mkRegions]

/-- Entry `i` of the built region list is `regionAt pmpcfg pmpaddr i`. -/
theorem mkRegions_getD (pmpcfg pmpaddr : List Nat) (i : Nat) (hi : i < 64)
    (d : PMPRegion) :
    (mkRegions pmpcfg pmpaddr).getD i d = regionAt pmpcfg pmpaddr i := by
  rw [mkRegions, List.getD_eq_getElem?_getD, List.getElem?_map,
    List.getElem?_range hi]
  rfl

/-- The `matches` result of the region at index `j` reads only `pmpcfg[j]`,
`pmpaddr[j]` and (for TOR) `pmpaddr[j-1]`. -/
theorem regionAt_matches_congr (pmpcfg pmpaddr pmpcfg2 pmpaddr2 : List Nat)
    (j phys_addr : Nat)
    (hc : pmpcfg.getD j 0 = pmpcfg2.getD j 0)
    (ha : pmpaddr.getD j 0 = pmpaddr2.getD j 0)
    (hp : pmpaddr.getD (j - 1) 0 = pmpaddr2.getD (j - 1) 0) :
    (regionAt pmpcfg2 pmpaddr2 j).matches phys_addr =
      (regionAt pmpcfg pmpaddr j).matches phys_addr := by
  unfold PMPRegion.matches PMPRegion.region_bounds regionAt PMPRegion.init
  simp only
  rw [← hc, ← ha, ← hp]

/-- The `matchDecision` of the region at index `j` reads only `pmpcfg[j]`. -/
theorem regionAt_matchDecision_congr (pmpcfg pmpaddr pmpcfg2 pmpaddr2 : List Nat)
    (j : Nat) (mode : Mode) (op : Op)
    (hc : pmpcfg.getD j 0 = pmpcfg2.getD j 0) :
    matchDecision (regionAt pmpcfg2 pmpaddr2 j) mode op =
      matchDecision (regionAt pmpcfg pmpaddr j) mode op := by
  unfold matchDecision PMPRegion.permits regionAt PMPRegion.init
  simp only
  rw [← hc]

/-- Evaluation at a first matching index `i` returns that entry's
`matchDecision`. -/
theorem evaluate_of_first_match (pmpcfg pmpaddr : List Nat) (phys_addr : Nat)
    (mode : Mode) (op : Op) (i : Nat) (hi : i < 64)
    (hbef : ∀ j, j < i → (regionAt pmpcfg pmpaddr j).matches phys_addr = false)
    (hm : (regionAt pmpcfg pmpaddr i).matches phys_addr = true) :
    evaluate pmpcfg pmpaddr phys_addr mode op =
      matchDecision (regionAt pmpcfg pmpaddr i) mode op := by
  have hlen := mkRegions_length pmpcfg pmpaddr
  have hscan := scanRegions_first phys_addr mode op (PMPRegion.init 0 0 0 [])
    (mkRegions pmpcfg pmpaddr) i (by omega) ?_ ?_
  · unfold evaluate
    rw [hscan, mkRegions_getD pmpcfg pmpaddr i hi]
  · intro j hj
    rw [mkRegions_getD pmpcfg pmpaddr j (by omega)]
    exact hbef j hj
  · rw [mkRegions_getD pmpcfg pmpaddr i hi]
    exact hm

/-- Evaluation with no matching entry takes the default branch. -/
theorem evaluate_of_no_match (pmpcfg pmpaddr : List Nat) (phys_addr : Nat)
    (mode : Mode) (op : Op)
    (hnm : ∀ j, j < 64 → (regionAt pmpcfg pmpaddr j).matches phys_addr = false) :
    evaluate pmpcfg pmpaddr phys_addr mode op =
      if any_pmp pmpcfg = true ∧ (mode = Mode.S ∨ mode = Mode.U) then
        Decision.fault
      else Decision.allowed := by
  have hlen := mkRegions_length pmpcfg pmpaddr
  have hscan := scanRegions_none phys_addr mode op (PMPRegion.init 0 0 0 [])
    (mkRegions pmpcfg pmpaddr) ?_
  · unfold evaluate
    rw [hscan]
  · intro j hj
    rw [hlen] at hj
    rw [mkRegions_getD pmpcfg pmpaddr j hj]
    exact hnm j hj

/-- With 64 config values, `any_pmp` holds iff some index below 64 decodes
to a non-OFF mode. -/
theorem any_pmp_iff (pmpcfg pmpaddr : List Nat) (hlen : pmpcfg.length = 64) :
    any_pmp pmpcfg = true ↔ ∃ j, j < 64 ∧ (regionAt pmpcfg pmpaddr j).a ≠ 0 := by
  unfold any_pmp
  rw [List.any_eq_true]
  constructor
  · rintro ⟨x, hmem, hx⟩
    rcases List.mem_iff_get.mp hmem with ⟨⟨n, hn⟩, he⟩
    refine ⟨n, by omega, ?_⟩
    rw [regionAt_a]
    have hgd : pmpcfg.getD n 0 = x := by
      rw [List.getD_eq_getElem?_getD, List.getElem?_eq_getElem hn]
      simpa using he
    rw [hgd]
    simpa using hx
  · rintro ⟨j, hj, hja⟩
    rw [regionAt_a] at hja
    have hjl : j < pmpcfg.length := by omega
    refine ⟨pmpcfg.getD j 0, ?_, by simpa using hja⟩
    rw [List.getD_eq_getElem?_getD, List.getElem?_eq_getElem hjl]
    exact List.getElem_mem hjl

/-- C1: First-match-wins.  For 64-entry configuration lists, if entry `i`
is the lowest-index entry whose decoded region contains the address, the
decision equals the lock/permission outcome (`matchDecision`) of entry `i`
alone; moreover any configuration agreeing with the original up to index
`i` (arbitrary beyond it) evaluates to the same decision, so entries after
the first matching one are never consulted. -/
theorem c1_first_match_wins (pmpcfg pmpaddr pmpcfg2 pmpaddr2 : List Nat)
    (phys_addr : Nat) (mode : Mode) (op : Op) (i : Nat)
    (hl1 : pmpcfg.length = 64) (hl2 : pmpaddr.length = 64)
    (hl3 : pmpcfg2.length = 64) (hl4 : pmpaddr2.length = 64)
    (hi : i < 64)
    (hagree : ∀ j, j ≤ i → pmpcfg.getD j 0 = pmpcfg2.getD j 0 ∧
      pmpaddr.getD j 0 = pmpaddr2.getD j 0)
    (hm : (regionAt pmpcfg pmpaddr i).matches phys_addr = true)
    (hbef : ∀ j, j < i →
      (regionAt pmpcfg pmpaddr j).matches phys_addr = false) :
    evaluate pmpcfg pmpaddr phys_addr mode op =
      matchDecision (regionAt pmpcfg pmpaddr i) mode op ∧
    evaluate pmpcfg2 pmpaddr2 phys_addr mode op =
      matchDecision (regionAt pmpcfg pmpaddr i) mode op := by
  constructor
  · exact evaluate_of_first_match pmpcfg pmpaddr phys_addr mode op i hi hbef hm
  · have hm2 : (regionAt pmpcfg2 pmpaddr2 i).matches phys_addr = true := by
      rw [regionAt_matches_congr pmpcfg pmpaddr pmpcfg2 pmpaddr2 i phys_addr
        (hagree i le_rfl).1 (hagree i le_rfl).2 (hagree (i - 1) (by omega)).2]
      exact hm
    have hbef2 : ∀ j, j < i →
        (regionAt pmpcfg2 pmpaddr2 j).matches phys_addr = false := by
      intro j hj
      rw [regionAt_matches_congr pmpcfg pmpaddr pmpcfg2 pmpaddr2 j phys_addr
        (hagree j (by omega)).1 (hagree j (by omega)).2
        (hagree (j - 1) (by omega)).2]
      exact hbef j hj
    rw [evaluate_of_first_match pmpcfg2 pmpaddr2 phys_addr mode op i hi hbef2
      hm2]
    exact regionAt_matchDecision_congr pmpcfg pmpaddr pmpcfg2 pmpaddr2 i mode
      op (hagree i le_rfl).1

theorem c1_witness :
    (68 :: List.replicate 63 (0 : Nat)).length = 64 ∧
    (16 :: List.replicate 63 (0 : Nat)).length = 64 ∧
    (0 : Nat) < 64 ∧
    (regionAt (68 :: List.replicate 63 0) (16 :: List.replicate 63 0)
      0).matches 65 = true ∧
    (evaluate (68 :: List.replicate 63 0) (16 :: List.replicate 63 0) 65
        Mode.S Op.R =
      matchDecision
        (regionAt (68 :: List.replicate 63 0) (16 :: List.replicate 63 0) 0)
        Mode.S Op.R ∧
    evaluate (68 :: List.replicate 63 0) (16 :: List.replicate 63 0) 65
        Mode.S Op.R =
      matchDecision
        (regionAt (68 :: List.replicate 63 0) (16 :: List.replicate 63 0) 0)
        Mode.S Op.R) := by
  have hl1 : (68 :: List.replicate 63 (0 : Nat)).length = 64 := by simp
  have hl2 : (16 :: List.replicate 63 (0 : Nat)).length = 64 := by simp
  have hm : (regionAt (68 :: List.replicate 63 0) (16 :: List.replicate 63 0)
      0).matches 65 = true := by decide
  exact ⟨hl1, hl2, by omega, hm,
    c1_first_match_wins (68 :: List.replicate 63 0)
      (16 :: List.replicate 63 0) (68 :: List.replicate 63 0)
      (16 :: List.replicate 63 0) 65 Mode.S Op.R 0 hl1 hl2 hl1 hl2 (by omega)
      (fun j _ => ⟨rfl, rfl⟩) hm (fun j hj => absurd hj (by omega))⟩

/-- C2: Machine-mode bypass.  If the first matching entry has its lock bit
clear and the privilege mode is Machine, the decision is Allowed
regardless of the entry's permission bits. -/
theorem c2_machine_bypass (pmpcfg pmpaddr : List Nat) (phys_addr : Nat)
    (op : Op) (i : Nat)
    (hl1 : pmpcfg.length = 64) (hl2 : pmpaddr.length = 64) (hi : i < 64)
    (hm : (regionAt pmpcfg pmpaddr i).matches phys_addr = true)
    (hbef : ∀ j, j < i →
      (regionAt pmpcfg pmpaddr j).matches phys_addr = false)
    (hL : (regionAt pmpcfg pmpaddr i).L = 0) :
    evaluate pmpcfg pmpaddr phys_addr Mode.M op = Decision.allowed := by
  rw [evaluate_of_first_match pmpcfg pmpaddr phys_addr Mode.M op i hi hbef hm]
  unfold matchDecision
  rw [if_pos ⟨rfl, hL⟩]

theorem c2_witness :
    (64 :: List.replicate 63 (0 : Nat)).length = 64 ∧
    (16 :: List.replicate 63 (0 : Nat)).length = 64 ∧
    (0 : Nat) < 64 ∧
    (regionAt (64 :: List.replicate 63 0) (16 :: List.replicate 63 0)
      0).matches 64 = true ∧
    (regionAt (64 :: List.replicate 63 0) (16 :: List.replicate 63 0) 0).L =
      0 ∧
    evaluate (64 :: List.replicate 63 0) (16 :: List.replicate 63 0) 64
      Mode.M Op.W = Decision.allowed := by
  have hl1 : (64 :: List.replicate 63 (0 : Nat)).length = 64 := by simp
  have hl2 : (16 :: List.replicate 63 (0 : Nat)).length = 64 := by simp
  have hm : (regionAt (64 :: List.replicate 63 0) (16 :: List.replicate 63 0)
      0).matches 64 = true := by decide
  exact ⟨hl1, hl2, by omega, hm, rfl,
    c2_machine_bypass (64 :: List.replicate 63 0) (16 :: List.replicate 63 0)
      64 Op.W 0 hl1 hl2 (by omega) hm (fun j hj => absurd hj (by omega)) rfl⟩

/-- C3: Permission resolution at the first match.  If the first matching
entry is locked, or the mode is Supervisor or User, the decision is
Allowed exactly when the entry's permission bit for the requested
operation is set, and Fault exactly when it is not. -/
theorem c3_permission_resolution (pmpcfg pmpaddr : List Nat)
    (phys_addr : Nat) (mode : Mode) (op : Op) (i : Nat)
    (hl1 : pmpcfg.length = 64) (hl2 : pmpaddr.length = 64) (hi : i < 64)
    (hm : (regionAt pmpcfg pmpaddr i).matches phys_addr = true)
    (hbef : ∀ j, j < i →
      (regionAt pmpcfg pmpaddr j).matches phys_addr = false)
    (hcond : (regionAt pmpcfg pmpaddr i).L ≠ 0 ∨ mode = Mode.S ∨
      mode = Mode.U) :
    (evaluate pmpcfg pmpaddr phys_addr mode op = Decision.allowed ↔
      (regionAt pmpcfg pmpaddr i).permits op mode = true) ∧
    (evaluate pmpcfg pmpaddr phys_addr mode op = Decision.fault ↔
      (regionAt pmpcfg pmpaddr i).permits op mode = false) := by
  rw [evaluate_of_first_match pmpcfg pmpaddr phys_addr mode op i hi hbef hm]
  unfold matchDecision
  have hnb : ¬(mode = Mode.M ∧ (regionAt pmpcfg pmpaddr i).L = 0) := by
    rintro ⟨hM, hL0⟩
    rcases hcond with hL | hS | hU
    · exact hL hL0
    · rw [hM] at hS; exact Mode.noConfusion hS
    · rw [hM] at hU; exact Mode.noConfusion hU
  rw [if_neg hnb]
  cases hperm : (regionAt pmpcfg pmpaddr i).permits op mode <;> simp

theorem c3_witness :
    (68 :: List.replicate 63 (0 : Nat)).length = 64 ∧
    (16 :: List.replicate 63 (0 : Nat)).length = 64 ∧
    (0 : Nat) < 64 ∧
    (regionAt (68 :: List.replicate 63 0) (16 :: List.replicate 63 0)
      0).matches 66 = true ∧
    ((evaluate (68 :: List.replicate 63 0) (16 :: List.replicate 63 0) 66
        Mode.U Op.X = Decision.allowed ↔
      (regionAt (68 :: List.replicate 63 0) (16 :: List.replicate 63 0)
        0).permits Op.X Mode.U = true) ∧
    (evaluate (68 :: List.replicate 63 0) (16 :: List.replicate 63 0) 66
        Mode.U Op.X = Decision.fault ↔
      (regionAt (68 :: List.replicate 63 0) (16 :: List.replicate 63 0)
        0).permits Op.X Mode.U = false)) := by
  have hl1 : (68 :: List.replicate 63 (0 : Nat)).length = 64 := by simp
  have hl2 : (16 :: List.replicate 63 (0 : Nat)).length = 64 := by simp
  have hm : (regionAt (68 :: List.replicate 63 0) (16 :: List.replicate 63 0)
      0).matches 66 = true := by decide
  exact ⟨hl1, hl2, by omega, hm,
    c3_permission_resolution (68 :: List.replicate 63 0)
      (16 :: List.replicate 63 0) 66 Mode.U Op.X 0 hl1 hl2 (by omega) hm
      (fun j hj => absurd hj (by omega)) (Or.inr (Or.inr rfl))⟩

/-- C4: No-match defaults.  With 64-entry lists and no entry matching the
address, the decision is Fault exactly when the mode is Supervisor or User
and some entry has a non-OFF mode, and Allowed exactly otherwise. -/
theorem c4_no_match_defaults (pmpcfg pmpaddr : List Nat) (phys_addr : Nat)
    (mode : Mode) (op : Op)
    (hl1 : pmpcfg.length = 64) (hl2 : pmpaddr.length = 64)
    (hnm : ∀ j, j < 64 →
      (regionAt pmpcfg pmpaddr j).matches phys_addr = false) :
    (evaluate pmpcfg pmpaddr phys_addr mode op = Decision.fault ↔
      ((mode = Mode.S ∨ mode = Mode.U) ∧
        ∃ j, j < 64 ∧ (regionAt pmpcfg pmpaddr j).a ≠ 0)) ∧
    (evaluate pmpcfg pmpaddr phys_addr mode op = Decision.allowed ↔
      ¬((mode = Mode.S ∨ mode = Mode.U) ∧
        ∃ j, j < 64 ∧ (regionAt pmpcfg pmpaddr j).a ≠ 0)) := by
  rw [evaluate_of_no_match pmpcfg pmpaddr phys_addr mode op hnm]
  have hiff := any_pmp_iff pmpcfg pmpaddr hl1
  by_cases hc : any_pmp pmpcfg = true ∧ (mode = Mode.S ∨ mode = Mode.U)
  · rw [if_pos hc]
    constructor
    · simp only [true_iff]
      exact ⟨hc.2, hiff.mp hc.1⟩
    · constructor
      · intro hab; exact absurd hab (by simp)
      · intro hn; exact absurd ⟨hc.2, hiff.mp hc.1⟩ hn
  · rw [if_neg hc]
    constructor
    · constructor
      · intro hab; exact absurd hab (by simp)
      · rintro ⟨hmode, hex⟩
        exact absurd ⟨hiff.mpr hex, hmode⟩ hc
    · simp only [true_iff]
      rintro ⟨hmode, hex⟩
      exact hc ⟨hiff.mpr hex, hmode⟩

theorem c4_witness :
    (List.replicate 64 (0 : Nat)).length = 64 ∧
    (∀ j, j < 64 →
      (regionAt (List.replicate 64 0) (List.replicate 64 0) j).matches 4096 =
        false) ∧
    ((evaluate (List.replicate 64 0) (List.replicate 64 0) 4096 Mode.S Op.R =
        Decision.fault ↔
      ((Mode.S = Mode.S ∨ Mode.S = Mode.U) ∧
        ∃ j, j < 64 ∧
          (regionAt (List.replicate 64 0) (List.replicate 64 0) j).a ≠ 0)) ∧
    (evaluate (List.replicate 64 0) (List.replicate 64 0) 4096 Mode.S Op.R =
        Decision.allowed ↔
      ¬((Mode.S = Mode.S ∨ Mode.S = Mode.U) ∧
        ∃ j, j < 64 ∧
          (regionAt (List.replicate 64 0) (List.replicate 64 0) j).a ≠ 0))) := by
  have hl : (List.replicate 64 (0 : Nat)).length = 64 := by simp
  have hnm : ∀ j, j < 64 →
      (regionAt (List.replicate 64 0) (List.replicate 64 0) j).matches 4096 =
        false := by decide
  exact ⟨hl, hnm,
    c4_no_match_defaults (List.replicate 64 0) (List.replicate 64 0) 4096
      Mode.S Op.R hl hl hnm⟩

/-- C5: NAPOT decoding.  For an entry in NAPOT mode with `n` the number of
trailing one bits of `rawAddr`, the decoded region starts at `rawAddr`
with its low `n` bits cleared (`2 ^ n * (rawAddr / 2 ^ n)`) shifted left
by 2, and spans `2 ^ (n + 3)` bytes; in particular `rawAddr = 0` decodes
to `[0, 8)`. -/
theorem c5_napot_decode (r : PMPRegion) (h3 : r.a = 3) :
    r.region_bounds =
      some (2 ^ count_trailing_ones r.addr *
          (r.addr / 2 ^ count_trailing_ones r.addr) * 4,
        2 ^ count_trailing_ones r.addr *
          (r.addr / 2 ^ count_trailing_ones r.addr) * 4 +
          2 ^ (count_trailing_ones r.addr + 3)) ∧
    (r.addr = 0 → r.region_bounds = some (0, 8)) := by
  have hb : r.region_bounds =
      some (clear_low_bits r.addr (count_trailing_ones r.addr) <<< 2,
        (clear_low_bits r.addr (count_trailing_ones r.addr) <<< 2) +
          (1 <<< (count_trailing_ones r.addr + 3))) := by
    unfold PMPRegion.region_bounds
    rw [h3]
    rfl
  have hlow : clear_low_bits r.addr (count_trailing_ones r.addr) <<< 2 =
      2 ^ count_trailing_ones r.addr *
        (r.addr / 2 ^ count_trailing_ones r.addr) * 4 := by
    rw [clear_low_bits_eq, Nat.shiftLeft_eq]
  constructor
  · rw [hb, hlow, one_shiftLeft_eq]
  · intro h0
    rw [hb, hlow, h0, one_shiftLeft_eq]
    have hc0 : count_trailing_ones 0 = 0 := by rw [cto_eq]; simp
    rw [hc0]
    norm_num

theorem c5_witness :
    (PMPRegion.init 0 96 0 []).a = 3 ∧
    ((PMPRegion.init 0 96 0 []).region_bounds =
      some (2 ^ count_trailing_ones (PMPRegion.init 0 96 0 []).addr *
          ((PMPRegion.init 0 96 0 []).addr /
            2 ^ count_trailing_ones (PMPRegion.init 0 96 0 []).addr) * 4,
        2 ^ count_trailing_ones (PMPRegion.init 0 96 0 []).addr *
          ((PMPRegion.init 0 96 0 []).addr /
            2 ^ count_trailing_ones (PMPRegion.init 0 96 0 []).addr) * 4 +
          2 ^ (count_trailing_ones (PMPRegion.init 0 96 0 []).addr + 3)) ∧
    ((PMPRegion.init 0 96 0 []).addr = 0 →
      (PMPRegion.init 0 96 0 []).region_bounds = some (0, 8))) :=
  ⟨rfl, c5_napot_decode (PMPRegion.init 0 96 0 []) rfl⟩

/-- C6: TOR decoding.  A TOR entry at index 0 decodes to
`[0, rawAddr <<< 2)`; at index `i > 0` it decodes to
`[pmpaddr[i-1] <<< 2, rawAddr <<< 2)`; and whenever the upper bound is at
most the lower bound the region is empty: `matches` is false on every
address, with no error. -/
theorem c6_tor_decode (r : PMPRegion) (h1 : r.a = 1) :
    (r.index = 0 → r.region_bounds = some (0, r.addr <<< 2)) ∧
    (r.index ≠ 0 → r.region_bounds =
      some ((r.all_pmpaddr.getD (r.index - 1) 0) <<< 2, r.addr <<< 2)) ∧
    (∀ lo hi, r.region_bounds = some (lo, hi) → hi ≤ lo →
      ∀ phys_addr, r.matches phys_addr = false) := by
  refine ⟨?_, ?_, ?_⟩
  · intro h0
    unfold PMPRegion.region_bounds
    rw [h1, h0]
    rfl
  · intro h0
    unfold PMPRegion.region_bounds
    rw [h1]
    simp only [if_neg h0]
    rfl
  · intro lo hi hb hle phys_addr
    unfold PMPRegion.matches
    rw [hb]
    simp only [decide_eq_false_iff_not]
    omega

theorem c6_witness :
    (PMPRegion.init 1 32 5 [7, 9]).a = 1 ∧
    (((PMPRegion.init 1 32 5 [7, 9]).index = 0 →
      (PMPRegion.init 1 32 5 [7, 9]).region_bounds =
        some (0, (PMPRegion.init 1 32 5 [7, 9]).addr <<< 2)) ∧
    ((PMPRegion.init 1 32 5 [7, 9]).index ≠ 0 →
      (PMPRegion.init 1 32 5 [7, 9]).region_bounds =
        some (((PMPRegion.init 1 32 5 [7, 9]).all_pmpaddr.getD
            ((PMPRegion.init 1 32 5 [7, 9]).index - 1) 0) <<< 2,
          (PMPRegion.init 1 32 5 [7, 9]).addr <<< 2)) ∧
    (∀ lo hi, (PMPRegion.init 1 32 5 [7, 9]).region_bounds = some (lo, hi) →
      hi ≤ lo → ∀ phys_addr,
        (PMPRegion.init 1 32 5 [7, 9]).matches phys_addr = false)) :=
  ⟨rfl, c6_tor_decode (PMPRegion.init 1 32 5 [7, 9]) rfl⟩

theorem cto_zero : count_trailing_ones 0 = 0 := by
  rw [cto_eq]
  simp

theorem cto_one : count_trailing_ones 1 = 1 := by
  rw [cto_eq]
  norm_num [cto_zero]

theorem cto_three : count_trailing_ones 3 = 2 := by
  rw [cto_eq]
  norm_num [cto_one]

/-- C7 counterexample: base 8 is 8-byte aligned and 16 = 2^4 is a legal
NAPOT size, but since 8 is not 16-aligned, encoding then decoding does not
reproduce `[8, 24)` (it yields `[0, 32)`). -/
theorem c7_counterexample :
    8 % 8 = 0 ∧ 3 ≤ 4 ∧
    (PMPRegion.init 0 96 ((8 >>> 2) ||| (2 ^ 4 / 8 - 1)) []).region_bounds =
      some (0, 32) ∧
    (PMPRegion.init 0 96 ((8 >>> 2) ||| (2 ^ 4 / 8 - 1)) []).region_bounds ≠
      some (8, 8 + 2 ^ 4) := by
  have hraw : (8 >>> 2) ||| (2 ^ 4 / 8 - 1) = 3 := by decide
  rw [hraw]
  have hb : (PMPRegion.init 0 96 3 []).region_bounds = some (0, 32) := by
    unfold PMPRegion.region_bounds PMPRegion.init
    norm_num [cto_three, clear_low_bits]
    decide
  refine ⟨rfl, by omega, hb, ?_⟩
  rw [hb]
  simp

/-- C7 (amended): NAPOT round-trip.  For a base `B` that is naturally
aligned to the size `S = 2 ^ k` (not merely 8-byte aligned) with `k ≥ 3`,
encoding the canonical raw address `(B >>> 2) ||| (S / 8 - 1)` and decoding
it in NAPOT mode reproduces exactly `[B, B + S)`. -/
theorem c7_napot_round_trip (idx cfg B k : Nat) (l : List Nat)
    (hmode : (cfg >>> 5) &&& 0x3 = 3) (hk : 3 ≤ k) (halign : 2 ^ k ∣ B) :
    (PMPRegion.init idx cfg ((B >>> 2) ||| (2 ^ k / 8 - 1)) l).region_bounds =
      some (B, B + 2 ^ k) := by
  obtain ⟨m, rfl⟩ : ∃ m, k = m + 3 := ⟨k - 3, by omega⟩
  obtain ⟨q, rfl⟩ := halign
  have hB4 : (2 ^ (m + 3) * q) >>> 2 = 2 ^ (m + 1) * q := by
    rw [Nat.shiftRight_eq_div_pow]
    have he : (2 : Nat) ^ (m + 3) * q = 2 ^ (m + 1) * q * 2 ^ 2 := by ring
    rw [he, Nat.mul_div_cancel _ (by norm_num)]
  have hmask : 2 ^ (m + 3) / 8 - 1 = 2 ^ m - 1 := by
    have he : (2 : Nat) ^ (m + 3) = 2 ^ m * 8 := by ring
    rw [he, Nat.mul_div_cancel _ (by norm_num)]
  have hraw : ((2 ^ (m + 3) * q) >>> 2) ||| (2 ^ (m + 3) / 8 - 1) =
      2 ^ (m + 1) * q + (2 ^ m - 1) := by
    rw [hB4, hmask, lor_two_pow_mul_mask]
  rw [hraw]
  have hcto : count_trailing_ones (2 ^ (m + 1) * q + (2 ^ m - 1)) = m :=
    cto_two_pow_mul_add_mask m q
  have ha : (PMPRegion.init idx cfg (2 ^ (m + 1) * q + (2 ^ m - 1)) l).a =
      3 := hmode
  have haddr :
      (PMPRegion.init idx cfg (2 ^ (m + 1) * q + (2 ^ m - 1)) l).addr =
        2 ^ (m + 1) * q + (2 ^ m - 1) := rfl
  unfold PMPRegion.region_bounds
  rw [ha, haddr]
  norm_num
  rw [hcto, clear_low_bits_eq, one_shiftLeft_eq]
  have hdiv : (2 ^ (m + 1) * q + (2 ^ m - 1)) / 2 ^ m = 2 * q := by
    have he : 2 ^ (m + 1) * q = 2 ^ m * (2 * q) := by ring
    rw [he, Nat.mul_add_div (Nat.pos_pow_of_pos m (by omega)),
      Nat.div_eq_of_lt (by have := @Nat.one_le_two_pow m; omega)]
    omega
  rw [hdiv, Nat.shiftLeft_eq]
  constructor <;> ring

theorem c7_witness :
    (96 >>> 5) &&& 0x3 = 3 ∧ 3 ≤ 4 ∧ 2 ^ 4 ∣ 32 ∧
    (PMPRegion.init 0 96 ((32 >>> 2) ||| (2 ^ 4 / 8 - 1)) []).region_bounds =
      some (32, 32 + 2 ^ 4) :=
  ⟨rfl, by omega, by decide,
    c7_napot_round_trip 0 96 32 4 [] rfl (by omega) (by decide)⟩

/-- C8 counterexample: an entry whose stored mode field is the reserved
value 4 gets `none` from the decoder — the same silent "no region" answer
as an OFF entry — rather than any fail-fast error. -/
theorem c8_counterexample :
    PMPRegion.region_bounds ⟨0, 0, 0, [], 0, 4, 0, 0, 0⟩ = none ∧
    PMPRegion.region_bounds ⟨0, 0, 0, [], 0, 0, 0, 0, 0⟩ = none :=
  ⟨rfl, rfl⟩

/-- C8 (amended): for every mode value outside {0, 1, 2, 3} the decoder
silently returns no region, exactly as for OFF; such values can never be
produced by configuration decoding, since `__init__` masks the mode field
to two bits. -/
theorem c8_reserved_mode_silent_off (r : PMPRegion) (h : 3 < r.a) :
    r.region_bounds = none ∧
    ∀ idx cfg addr l, (PMPRegion.init idx cfg addr l).a < 4 := by
  constructor
  · unfold PMPRegion.region_bounds
    rw [if_neg (by omega), if_neg (by omega), if_neg (by omega),
      if_neg (by omega)]
  · intro idx cfg addr l
    show (cfg >>> 5) &&& 3 < 4
    exact Nat.lt_succ_of_le Nat.and_le_right

theorem c8_witness :
    3 < (⟨1, 2, 3, [], 0, 5, 0, 0, 0⟩ : PMPRegion).a ∧
    (PMPRegion.region_bounds ⟨1, 2, 3, [], 0, 5, 0, 0, 0⟩ = none ∧
      ∀ idx cfg addr l, (PMPRegion.init idx cfg addr l).a < 4) :=
  ⟨by decide, c8_reserved_mode_silent_off ⟨1, 2, 3, [], 0, 5, 0, 0, 0⟩
    (by decide)⟩

/-- C9: NAPOT natural alignment.  The lower bound of a NAPOT-decoded
region is an exact multiple of its size `2 ^ (n + 3)` (where `n` is the
trailing-ones count of the raw address), because the bit just above the
trailing run of ones is necessarily 0. -/
theorem c9_napot_alignment (r : PMPRegion) (h3 : r.a = 3) (lo hi : Nat)
    (hb : r.region_bounds = some (lo, hi)) :
    2 ^ (count_trailing_ones r.addr + 3) ∣ lo ∧
    hi = lo + 2 ^ (count_trailing_ones r.addr + 3) := by
  have hb2 : r.region_bounds =
      some (clear_low_bits r.addr (count_trailing_ones r.addr) <<< 2,
        (clear_low_bits r.addr (count_trailing_ones r.addr) <<< 2) +
          (1 <<< (count_trailing_ones r.addr + 3))) := by
    unfold PMPRegion.region_bounds
    rw [h3]
    rfl
  rw [hb2] at hb
  simp only [Option.some.injEq, Prod.mk.injEq] at hb
  obtain ⟨hlo, hhi⟩ := hb
  have heven := div_pow_cto_even r.addr
  obtain ⟨t, ht⟩ : ∃ t, r.addr / 2 ^ count_trailing_ones r.addr = 2 * t :=
    ⟨r.addr / 2 ^ count_trailing_ones r.addr / 2, by omega⟩
  constructor
  · refine ⟨t, ?_⟩
    rw [← hlo, clear_low_bits_eq, Nat.shiftLeft_eq, ht]
    ring
  · rw [← hhi, ← hlo, one_shiftLeft_eq]

theorem c9_witness :
    (PMPRegion.init 0 96 0 []).a = 3 ∧
    (PMPRegion.init 0 96 0 []).region_bounds = some (0, 8) ∧
    (2 ^ (count_trailing_ones (PMPRegion.init 0 96 0 []).addr + 3) ∣ 0 ∧
      8 = 0 + 2 ^ (count_trailing_ones (PMPRegion.init 0 96 0 []).addr + 3)) := by
  have hb : (PMPRegion.init 0 96 0 []).region_bounds = some (0, 8) := by
    unfold PMPRegion.region_bounds PMPRegion.init
    norm_num [cto_zero, clear_low_bits]
    decide
  exact ⟨rfl, hb, c9_napot_alignment (PMPRegion.init 0 96 0 []) rfl 0 8 hb⟩

/-- C10 counterexample: the `count_trailing_ones` loop does terminate on
the negative input `-2` (its low bit is 0, so the loop exits at once), so
it is not the case that the loop never terminates on a negative input. -/
theorem c10_counterexample :
    ctoLoopFuel 1 (-2) 0 = some 0 ∧ (-2 : Int) < 0 :=
  ⟨by decide, by decide⟩

/-- C10 (amended): `count_trailing_ones` terminates on every non-negative
integer input, computing the trailing-ones count (fuel `x + 1` always
suffices), while on the negative input `-1` the loop runs forever (no
amount of fuel makes it return): the non-negativity precondition is
essential because of `-1`, though some negative inputs do terminate. -/
theorem c10_loop_termination :
    (∀ x : Nat, ctoLoopFuel (x + 1) (x : Int) 0 =
      some (count_trailing_ones x)) ∧
    (∀ fuel count : Nat, ctoLoopFuel fuel (-1) count = none) := by
  constructor
  · have main : ∀ fuel x count, x < fuel →
        ctoLoopFuel fuel (x : Int) count =
          some (count + count_trailing_ones x) := by
      intro fuel
      induction fuel with
      | zero => intro x count h; exact absurd h (by omega)
      | succ f ih =>
        intro x count h
        simp only [ctoLoopFuel]
        by_cases hodd : x % 2 = 1
        · have hoddInt : (x : Int) % 2 = 1 := by omega
          rw [if_pos hoddInt]
          have hfd : (x : Int).fdiv 2 = ((x / 2 : Nat) : Int) :=
            (Int.ofNat_fdiv x 2).symm
          rw [hfd]
          have hrec := ih (x / 2) (count + 1) (by omega)
          rw [hrec, cto_eq x, if_pos hodd]
          congr 1
          omega
        · have hoddInt : ¬(x : Int) % 2 = 1 := by omega
          rw [if_neg hoddInt, cto_eq x, if_neg hodd]
          simp
    intro x
    have hx := main (x + 1) x 0 (by omega)
    simpa using hx
  · intro fuel
    induction fuel with
    | zero => intro count; rfl
    | succ f ih =>
      intro count
      simp only [ctoLoopFuel]
      rw [if_pos (by decide : (-1 : Int) % 2 = 1),
        show ((-1 : Int)).fdiv 2 = -1 from by decide]
      exact ih (count + 1)
